import Mathlib

/-!
Verification development for the game-portal backend (src/main.py).

The embedding models strings as `List Char` (`Str`), arbitrary-precision
Python integers as `Nat`/`Int`, and time as whole seconds since the Unix
epoch (`Nat`).  Pure helpers from the source (`create_token`,
`verify_token`) become Lean functions; the Mongo collection behind the save
routes becomes an explicit `SaveState` value threaded through
`upsert_save` / `get_saves`.  `hmac.new(..., hashlib.sha256)` and
`hexdigest` are implemented concretely (full SHA-256 over byte lists) so
the token wire format is bit-exact.
-/

abbrev Str := List Char

/-- One step of `str.split`: prepend character `c` to an already-split tail.
The `[]` branch is unreachable (`pySplit` never returns `[]`). -/
def consPiece (sep c : Char) : List Str → List Str
  | [] => [[c]]
  | p :: ps => if c = sep then [] :: p :: ps else (c :: p) :: ps

/-- Python `str.split(sep)` for a one-character separator: splits on every
occurrence, keeping empty pieces; `"".split(sep) = [""]`. -/
def pySplit (sep : Char) : Str → List Str
  | [] => [[]]
  | c :: cs => consPiece sep c (pySplit sep cs)

theorem consPiece_ne_nil (sep c : Char) (r : List Str) : consPiece sep c r ≠ [] := by
  cases r with
  | nil => simp [consPiece]
  | cons p ps =>
    simp only [consPiece]
    split <;> simp

theorem pySplit_ne_nil (sep : Char) (l : Str) : pySplit sep l ≠ [] := by
  cases l with
  | nil => simp [pySplit]
  | cons c cs => exact consPiece_ne_nil sep c _

/-- Splitting a separator-free string yields the single piece. -/
theorem pySplit_sepFree {sep : Char} {l : Str} (h : sep ∉ l) :
    pySplit sep l = [l] := by
  induction l with
  | nil => rfl
  | cons c cs ih =>
    simp only [List.mem_cons, not_or] at h
    have hne : ¬ c = sep := fun hc => h.1 hc.symm
    simp only [pySplit]
    rw [ih h.2]
    simp [consPiece, hne]

/-- Splitting a string that starts with a separator-free piece followed by
the separator peels that piece off. -/
theorem pySplit_append {sep : Char} {a : Str} (h : sep ∉ a) (rest : Str) :
    pySplit sep (a ++ sep :: rest) = a :: pySplit sep rest := by
  induction a with
  | nil =>
    simp only [List.nil_append, pySplit]
    cases hr : pySplit sep rest with
    | nil => exact absurd hr (pySplit_ne_nil sep rest)
    | cons p ps => simp [consPiece]
  | cons c cs ih =>
    simp only [List.mem_cons, not_or] at h
    have hne : ¬ c = sep := fun hc => h.1 hc.symm
    simp only [List.cons_append, pySplit, List.append_eq]
    rw [ih h.2]
    simp [consPiece, hne]

/-- The number of pieces is one more than the number of separators. -/
theorem pySplit_length (sep : Char) (l : Str) :
    (pySplit sep l).length = l.count sep + 1 := by
  induction l with
  | nil => simp [pySplit]
  | cons c cs ih =>
    simp only [pySplit]
    cases hr : pySplit sep cs with
    | nil => exact absurd hr (pySplit_ne_nil sep cs)
    | cons p ps =>
      rw [hr] at ih
      simp only [List.length_cons] at ih
      by_cases hc : c = sep
      · subst hc
        simp only [consPiece, if_pos rfl, List.length_cons, List.count_cons,
          beq_self_eq_true, if_true]
        omega
      · have hbeq : (c == sep) = false := by simp [hc]
        simp only [consPiece, if_neg hc, List.length_cons, List.count_cons, hbeq,
          Bool.false_eq_true, if_false]
        omega

-- ---------------------------------------------------------------------------
-- Decimal printing (Python f-string `f"{exp}"`) and parsing (Python `int()`)
-- ---------------------------------------------------------------------------

def isDigit (c : Char) : Bool := 48 ≤ c.toNat && c.toNat ≤ 57

def digitVal (c : Char) : Nat := c.toNat - 48

def digitChar (n : Nat) : Char := Char.ofNat (48 + n)

/-- Decimal printer (most significant digit first), fuel-based so the kernel
can evaluate it; `printNat n` uses fuel `n + 1`, always enough. -/
def printNatGo : Nat → Nat → Str → Str
  | 0, _, acc => acc
  | fuel + 1, n, acc =>
    if n < 10 then digitChar n :: acc
    else printNatGo fuel (n / 10) (digitChar (n % 10) :: acc)

def printNat (n : Nat) : Str := printNatGo (n + 1) n []

theorem printNatGo_eq :
    ∀ fuel n acc, n < fuel → printNatGo fuel n acc = printNatGo (n + 1) n [] ++ acc := by
  intro fuel
  induction fuel using Nat.strong_induction_on with
  | _ fuel ih =>
    intro n acc h
    cases fuel with
    | zero => omega
    | succ f =>
      by_cases h10 : n < 10
      · have h1 : printNatGo (f + 1) n acc = digitChar n :: acc := by
          simp [printNatGo, h10]
        have h2 : printNatGo (n + 1) n [] = [digitChar n] := by
          cases n with
          | zero => simp [printNatGo, h10]
          | succ m => simp [printNatGo, h10]
        rw [h1, h2]
        rfl
      · have hfl : n / 10 < f := by
          have := Nat.div_lt_self (show 0 < n by omega) (show 1 < 10 by omega)
          omega
        have e1 : printNatGo (f + 1) n acc
            = printNatGo f (n / 10) (digitChar (n % 10) :: acc) := by
          simp [printNatGo, h10]
        have e2 : printNatGo (n + 1) n []
            = printNatGo n (n / 10) [digitChar (n % 10)] := by
          cases n with
          | zero => omega
          | succ m => simp [printNatGo, h10]
        rw [e1, e2]
        rw [ih f (by omega) _ _ hfl]
        rw [ih n (by omega) _ _ (Nat.div_lt_self (by omega) (by omega))]
        simp

/-- For `n ≥ 10` the printed form ends with the last digit. -/
theorem printNat_decomp {n : Nat} (h : ¬ n < 10) :
    printNat n = printNat (n / 10) ++ [digitChar (n % 10)] := by
  show printNatGo (n + 1) n [] = _
  cases n with
  | zero => omega
  | succ m =>
    have e : printNatGo (m + 1 + 1) (m + 1) []
        = printNatGo (m + 1) ((m + 1) / 10) [digitChar ((m + 1) % 10)] := by
      simp [printNatGo, h]
    rw [e, printNatGo_eq _ _ _ (Nat.div_lt_self (by omega) (by omega))]
    rfl

theorem printNat_small {n : Nat} (h : n < 10) : printNat n = [digitChar n] := by
  show printNatGo (n + 1) n [] = _
  cases n with
  | zero => simp [printNatGo, h]
  | succ m => simp [printNatGo, h]

theorem isDigit_digitChar {n : Nat} (h : n < 10) : isDigit (digitChar n) = true := by
  interval_cases n <;> decide

theorem digitVal_digitChar {n : Nat} (h : n < 10) : digitVal (digitChar n) = n := by
  interval_cases n <;> decide

theorem printNat_digits (n : Nat) : ∀ c ∈ printNat n, isDigit c = true := by
  induction n using Nat.strong_induction_on with
  | _ n ih =>
    by_cases h : n < 10
    · rw [printNat_small h]
      intro c hc
      simp only [List.mem_singleton] at hc
      subst hc
      exact isDigit_digitChar h
    · rw [printNat_decomp h]
      intro c hc
      rcases List.mem_append.1 hc with hc | hc
      · exact ih (n / 10) (Nat.div_lt_self (by omega) (by omega)) c hc
      · simp only [List.mem_singleton] at hc
        subst hc
        exact isDigit_digitChar (Nat.mod_lt _ (by omega))

theorem printNat_ne_nil (n : Nat) : printNat n ≠ [] := by
  by_cases h : n < 10
  · rw [printNat_small h]
    simp
  · rw [printNat_decomp h]
    simp

/-- Value of a digit string read left to right. -/
def valOfDigits (l : Str) : Nat := l.foldl (fun a c => 10 * a + digitVal c) 0

theorem valOfDigits_printNat (n : Nat) : valOfDigits (printNat n) = n := by
  induction n using Nat.strong_induction_on with
  | _ n ih =>
    by_cases h : n < 10
    · rw [printNat_small h]
      simp [valOfDigits, digitVal_digitChar h]
    · rw [printNat_decomp h]
      unfold valOfDigits
      rw [List.foldl_append]
      have := ih (n / 10) (Nat.div_lt_self (by omega) (by omega))
      unfold valOfDigits at this
      rw [this]
      simp only [List.foldl_cons, List.foldl_nil]
      rw [digitVal_digitChar (Nat.mod_lt _ (by omega))]
      omega

/-- ASCII whitespace stripped by Python `int()` / `str.strip()`.
(CPython also strips some Unicode space characters; the tokens this
backend produces and checks are ASCII, so the ASCII set is modelled.) -/
def isPySpace (c : Char) : Bool := c.toNat = 32 || (9 ≤ c.toNat && c.toNat ≤ 13)

def stripWS (l : Str) : Str :=
  ((l.dropWhile isPySpace).reverse.dropWhile isPySpace).reverse

/-- Digit run of Python `int()` after the first digit: decimal digits with
single underscores allowed between digits. -/
def pyDigitsAux : Nat → Str → Option Nat
  | acc, [] => some acc
  | acc, c :: cs =>
    if isDigit c then pyDigitsAux (10 * acc + digitVal c) cs
    else if c = '_' then
      match cs with
      | [] => none
      | d :: ds => if isDigit d then pyDigitsAux (10 * acc + digitVal d) ds else none
    else none

/-- Nonempty digit run starting with a digit. -/
def pyNatDigits : Str → Option Nat
  | [] => none
  | c :: cs => if isDigit c then pyDigitsAux (digitVal c) cs else none

/-- Python `int(s)` on a decimal string: strip whitespace, optional sign,
then digits (underscores allowed between digits). -/
def pyInt (s : Str) : Option Int :=
  match stripWS s with
  | [] => none
  | c :: cs =>
    if c = '+' then (pyNatDigits cs).map Int.ofNat
    else if c = '-' then (pyNatDigits cs).map (fun n => -(n : Int))
    else (pyNatDigits (c :: cs)).map Int.ofNat

theorem isPySpace_of_digit {c : Char} (h : isDigit c = true) : isPySpace c = false := by
  cases hb : isPySpace c with
  | false => rfl
  | true =>
    exfalso
    simp only [isDigit, Bool.and_eq_true, decide_eq_true_eq] at h
    simp only [isPySpace, Bool.or_eq_true, Bool.and_eq_true, decide_eq_true_eq] at hb
    omega

theorem dropWhile_no (p : Char → Bool) (l : Str) (h : ∀ c ∈ l, p c = false) :
    l.dropWhile p = l := by
  cases l with
  | nil => rfl
  | cons c cs => simp [List.dropWhile_cons, h c (by simp)]

theorem stripWS_digits {l : Str} (h : ∀ c ∈ l, isDigit c = true) : stripWS l = l := by
  unfold stripWS
  rw [dropWhile_no _ _ (fun c hc => isPySpace_of_digit (h c hc))]
  rw [dropWhile_no _ _ (fun c hc => isPySpace_of_digit (h c (List.mem_reverse.1 hc)))]
  exact List.reverse_reverse l

theorem pyDigitsAux_digits (l : Str) (h : ∀ c ∈ l, isDigit c = true) :
    ∀ acc, pyDigitsAux acc l = some (l.foldl (fun a c => 10 * a + digitVal c) acc) := by
  induction l with
  | nil => intro acc; rfl
  | cons c cs ih =>
    intro acc
    have hc : isDigit c = true := h c (by simp)
    have step : pyDigitsAux acc (c :: cs) = pyDigitsAux (10 * acc + digitVal c) cs := by
      conv_lhs => rw [pyDigitsAux.eq_def]
      split
      next heq => exact absurd heq (by simp)
      next a c2 cs2 heq =>
        injection heq with h1 h2
        subst h1
        subst h2
        rw [if_pos hc]
    rw [step, List.foldl_cons]
    exact ih (fun d hd => h d (by simp [hd])) _

theorem pyNatDigits_printNat (n : Nat) : pyNatDigits (printNat n) = some n := by
  have hdig := printNat_digits n
  have hval := valOfDigits_printNat n
  cases hp : printNat n with
  | nil => exact absurd hp (printNat_ne_nil n)
  | cons c cs =>
    rw [hp] at hdig hval
    simp only [pyNatDigits]
    rw [if_pos (hdig c (by simp))]
    rw [pyDigitsAux_digits cs (fun d hd => hdig d (by simp [hd])) (digitVal c)]
    unfold valOfDigits at hval
    simp only [List.foldl_cons, Nat.mul_zero, Nat.zero_add] at hval
    rw [hval]

theorem pyInt_printNat (n : Nat) : pyInt (printNat n) = some (n : Int) := by
  unfold pyInt
  rw [stripWS_digits (printNat_digits n)]
  have hdig := printNat_digits n
  have hnat := pyNatDigits_printNat n
  cases hp : printNat n with
  | nil => exact absurd hp (printNat_ne_nil n)
  | cons c cs =>
    rw [hp] at hdig hnat
    have hc : isDigit c = true := hdig c (by simp)
    have h1 : ¬ c = '+' := by
      intro he
      rw [he] at hc
      exact absurd hc (by decide)
    have h2 : ¬ c = '-' := by
      intro he
      rw [he] at hc
      exact absurd hc (by decide)
    simp only [if_neg h1, if_neg h2, hnat, Option.map_some]
    rfl

/-- The printed decimal of a natural number never contains a separator such
as `:` (all its characters are digits). -/
theorem printNat_no_colon (n : Nat) : ':' ∉ printNat n := by
  intro hmem
  have := printNat_digits n ':' hmem
  exact absurd this (by decide)

-- ---------------------------------------------------------------------------
-- Bytes, UTF-8 (`str.encode()`), SHA-256 (`hashlib.sha256`), HMAC (`hmac.new`)
-- ---------------------------------------------------------------------------

/-- Bytes are naturals < 256; arithmetic is explicit `% 2^32` for SHA words. -/
abbrev Bytes := List Nat

/-- UTF-8 encoding of one character (standard 1-4 byte forms). -/
def utf8Char (c : Char) : Bytes :=
  let n := c.toNat
  if n < 128 then [n]
  else if n < 2048 then [192 + n / 64, 128 + n % 64]
  else if n < 65536 then [224 + n / 4096, 128 + n / 64 % 64, 128 + n % 64]
  else [240 + n / 262144, 128 + n / 4096 % 64, 128 + n / 64 % 64, 128 + n % 64]

/-- Python `str.encode()`: UTF-8 bytes of a string. -/
def utf8 (s : Str) : Bytes := s.foldr (fun c acc => utf8Char c ++ acc) []

def w32 (n : Nat) : Nat := n % 4294967296

def rotr (k n : Nat) : Nat := w32 ((n >>> k) ||| (n <<< (32 - k)))

/-- SHA-256 working state: eight 32-bit words. -/
structure Hash8 where
  a : Nat
  b : Nat
  c : Nat
  d : Nat
  e : Nat
  f : Nat
  g : Nat
  h : Nat

/-- SHA-256 initial hash value (FIPS 180-4; written in decimal). -/
def sha256H0 : Hash8 :=
  ⟨1779033703, 3144134277, 1013904242, 2773480762,
   1359893119, 2600822924, 528734635, 1541459225⟩

/-- SHA-256 round constants (FIPS 180-4; written in decimal). -/
def sha256K : List Nat :=
  [1116352408, 1899447441, 3049323471, 3921009573, 961987163,
   1508970993, 2453635748, 2870763221, 3624381080, 310598401,
   607225278, 1426881987, 1925078388, 2162078206, 2614888103,
   3248222580, 3835390401, 4022224774, 264347078, 604807628,
   770255983, 1249150122, 1555081692, 1996064986, 2554220882,
   2821834349, 2952996808, 3210313671, 3336571891, 3584528711,
   113926993, 338241895, 666307205, 773529912, 1294757372,
   1396182291, 1695183700, 1986661051, 2177026350, 2456956037,
   2730485921, 2820302411, 3259730800, 3345764771, 3516065817,
   3600352804, 4094571909, 275423344, 430227734, 506948616,
   659060556, 883997877, 958139571, 1322822218, 1537002063,
   1747873779, 1955562222, 2024104815, 2227730452, 2361852424,
   2428436474, 2756734187, 3204031479, 3329325298]

/-- Merkle–Damgård padding: append `0x80`, zeros to 56 mod 64, then the
bit length as 8 big-endian bytes. -/
def sha256pad (msg : Bytes) : Bytes :=
  let L := msg.length
  let zeros := (119 - L % 64) % 64
  let bitLen := (8 * L) % 18446744073709551616
  msg ++ [128] ++ List.replicate zeros 0 ++
    [bitLen >>> 56 % 256, bitLen >>> 48 % 256, bitLen >>> 40 % 256,
     bitLen >>> 32 % 256, bitLen >>> 24 % 256, bitLen >>> 16 % 256,
     bitLen >>> 8 % 256, bitLen % 256]

/-- Chop a list into pieces of `n` (fuel-based structural recursion). -/
def chunksGo (n : Nat) : Nat → List Nat → List (List Nat)
  | 0, _ => []
  | _, [] => []
  | fuel + 1, l => l.take n :: chunksGo n fuel (l.drop n)

def chunks (n : Nat) (l : List Nat) : List (List Nat) := chunksGo n l.length l

/-- Big-endian 32-bit word from (up to four) bytes. -/
def wordOfBytes (bs : Bytes) : Nat := bs.foldl (fun acc b => 256 * acc + b) 0

/-- Big-endian bytes of a 32-bit word. -/
def bytesOfWord (v : Nat) : Bytes :=
  [v >>> 24 % 256, v >>> 16 % 256, v >>> 8 % 256, v % 256]

def sigma0 (x : Nat) : Nat := rotr 7 x ^^^ rotr 18 x ^^^ (x >>> 3)

def sigma1 (x : Nat) : Nat := rotr 17 x ^^^ rotr 19 x ^^^ (x >>> 10)

/-- Extend the 16 schedule words to 64; `acc` holds the schedule reversed. -/
def schedExtend : Nat → List Nat → List Nat
  | 0, acc => acc
  | k + 1, acc =>
    let nw := w32 (sigma1 (acc.getD 1 0) + acc.getD 6 0 + sigma0 (acc.getD 14 0) + acc.getD 15 0)
    schedExtend k (nw :: acc)

/-- Message schedule of one 64-byte chunk: 64 32-bit words. -/
def sched (chunk : Bytes) : List Nat :=
  (schedExtend 48 ((chunks 4 chunk).map wordOfBytes).reverse).reverse

def bigS1 (x : Nat) : Nat := rotr 6 x ^^^ rotr 11 x ^^^ rotr 25 x

def bigS0 (x : Nat) : Nat := rotr 2 x ^^^ rotr 13 x ^^^ rotr 22 x

/-- One SHA-256 compression round; `kw` pairs a round constant with a
schedule word. -/
def compressStep (st : Hash8) (kw : Nat × Nat) : Hash8 :=
  let ch := (st.e &&& st.f) ^^^ ((4294967295 ^^^ st.e) &&& st.g)
  let temp1 := w32 (st.h + bigS1 st.e + ch + kw.1 + kw.2)
  let maj := (st.a &&& st.b) ^^^ (st.a &&& st.c) ^^^ (st.b &&& st.c)
  let temp2 := w32 (bigS0 st.a + maj)
  ⟨w32 (temp1 + temp2), st.a, st.b, st.c, w32 (st.d + temp1), st.e, st.f, st.g⟩

def compressChunk (H : Hash8) (chunk : Bytes) : Hash8 :=
  let st := (sha256K.zip (sched chunk)).foldl compressStep H
  ⟨w32 (H.a + st.a), w32 (H.b + st.b), w32 (H.c + st.c), w32 (H.d + st.d),
   w32 (H.e + st.e), w32 (H.f + st.f), w32 (H.g + st.g), w32 (H.h + st.h)⟩

/-- SHA-256 digest (32 bytes) of a byte string. -/
def sha256 (msg : Bytes) : Bytes :=
  let Hf := (chunks 64 (sha256pad msg)).foldl compressChunk sha256H0
  bytesOfWord Hf.a ++ bytesOfWord Hf.b ++ bytesOfWord Hf.c ++ bytesOfWord Hf.d ++
  bytesOfWord Hf.e ++ bytesOfWord Hf.f ++ bytesOfWord Hf.g ++ bytesOfWord Hf.h

/-- `hmac.new(key, msg, hashlib.sha256).digest()`: HMAC-SHA256 with a
64-byte block size. -/
def hmacSha256 (key msg : Bytes) : Bytes :=
  let k0 := if 64 < key.length then sha256 key else key
  let kp := k0 ++ List.replicate (64 - k0.length) 0
  sha256 ((kp.map (fun b => b ^^^ 92)) ++ sha256 ((kp.map (fun b => b ^^^ 54)) ++ msg))

def hexChar (n : Nat) : Char := if n < 10 then Char.ofNat (48 + n) else Char.ofNat (87 + n)

/-- Lowercase hex of one byte (`bytes.hex()` / `.hexdigest()` element). -/
def hexByte (b : Nat) : Str := [hexChar (b / 16), hexChar (b % 16)]

/-- `.hexdigest()`: lowercase hex string of a byte string. -/
def hexdigest (bs : Bytes) : Str := bs.foldr (fun b acc => hexByte b ++ acc) []

theorem mem_bytesOfWord {b v : Nat} (h : b ∈ bytesOfWord v) : b < 256 := by
  simp only [bytesOfWord, List.mem_cons, List.not_mem_nil, or_false] at h
  rcases h with h | h | h | h <;> subst h <;> exact Nat.mod_lt _ (by omega)

theorem sha256_length (msg : Bytes) : (sha256 msg).length = 32 := by
  simp [sha256, bytesOfWord]

theorem sha256_lt (msg : Bytes) : ∀ b ∈ sha256 msg, b < 256 := by
  intro b hb
  simp only [sha256, List.mem_append] at hb
  rcases hb with ((((((h | h) | h) | h) | h) | h) | h) | h <;> exact mem_bytesOfWord h

def isLowerHex (c : Char) : Bool :=
  (48 ≤ c.toNat && c.toNat ≤ 57) || (97 ≤ c.toNat && c.toNat ≤ 102)

theorem isLowerHex_hexChar {n : Nat} (h : n < 16) : isLowerHex (hexChar n) = true := by
  interval_cases n <;> decide

theorem hexByte_lowerHex {b : Nat} (h : b < 256) :
    ∀ c ∈ hexByte b, isLowerHex c = true := by
  intro c hc
  simp only [hexByte, List.mem_cons, List.not_mem_nil, or_false] at hc
  rcases hc with rfl | rfl
  · exact isLowerHex_hexChar (by omega)
  · exact isLowerHex_hexChar (Nat.mod_lt _ (by omega))

theorem hexdigest_cons (b : Nat) (bs : Bytes) :
    hexdigest (b :: bs) = hexByte b ++ hexdigest bs := rfl

theorem hexdigest_lowerHex {bs : Bytes} (h : ∀ b ∈ bs, b < 256) :
    ∀ c ∈ hexdigest bs, isLowerHex c = true := by
  induction bs with
  | nil => intro c hc; simp [hexdigest] at hc
  | cons b bs ih =>
    intro c hc
    rw [hexdigest_cons] at hc
    rcases List.mem_append.1 hc with hc | hc
    · exact hexByte_lowerHex (h b (by simp)) c hc
    · exact ih (fun x hx => h x (by simp [hx])) c hc

theorem hexdigest_length (bs : Bytes) : (hexdigest bs).length = 2 * bs.length := by
  induction bs with
  | nil => rfl
  | cons b bs ih =>
    rw [hexdigest_cons, List.length_append, ih]
    simp [hexByte]
    omega

theorem lowerHex_ascii {c : Char} (h : isLowerHex c = true) : c.toNat < 128 := by
  simp only [isLowerHex, Bool.or_eq_true, Bool.and_eq_true, decide_eq_true_eq] at h
  omega

theorem lowerHex_ne_colon {c : Char} (h : isLowerHex c = true) : c ≠ ':' := by
  intro heq
  rw [heq] at h
  exact absurd h (by decide)

theorem hexdigest_no_colon {bs : Bytes} (h : ∀ b ∈ bs, b < 256) :
    ':' ∉ hexdigest bs := by
  intro hmem
  exact absurd rfl (lowerHex_ne_colon (hexdigest_lowerHex h ':' hmem))

-- ---------------------------------------------------------------------------
-- The token scheme (src/main.py, create_token / verify_token)
-- ---------------------------------------------------------------------------

/-- `create_token` (src/main.py lines 35-39).  The signing key (`SECRET_KEY`)
and the configured lifetime in minutes (`TOKEN_EXP_MIN`) are process-wide
configuration, passed explicitly; `now` is the current time in whole seconds
since the epoch, so `exp = int((now + timedelta(minutes=m)).timestamp())`
is `now + 60 * m`. -/
def create_token (key : Str) (tokenExpMin : Nat) (user_id : Str) (now : Nat) : Str :=
  let exp := now + 60 * tokenExpMin
  let payload := user_id ++ ':' :: printNat exp
  let sig := hexdigest (hmacSha256 (utf8 key) (utf8 payload))
  payload ++ ':' :: sig

def isAsciiStr (s : Str) : Bool := s.all (fun c => c.toNat < 128)

/-- The comparison performed by `hmac.compare_digest` on two `str` values:
equal length and equal characters, accumulated over the whole strings. -/
def ctEq (a b : Str) : Bool :=
  (a.length == b.length) && (a.zip b).all (fun p => p.1 == p.2)

/-- `hmac.compare_digest(a, b)` for `str` arguments: `none` models the
`TypeError` raised on non-ASCII input (caught by `verify_token`'s broad
`except`), otherwise the boolean comparison result. -/
def compareDigest (a b : Str) : Option Bool :=
  if isAsciiStr a && isAsciiStr b then some (ctEq a b) else none

/-- The MAC recomputed by `verify_token` over `f"{user_id}:{exp_s}"`. -/
def expectedSig (key a b : Str) : Str :=
  hexdigest (hmacSha256 (utf8 key) (utf8 (a ++ ':' :: b)))

/-- `verify_token` (src/main.py lines 42-53).  The broad `try/except` is
modelled by the `none` outcomes: a split into any number of fields other
than three, a `TypeError` from `compare_digest`, and an unparseable expiry
all collapse to `none`. -/
def verify_token (key : Str) (token : Str) (now : Nat) : Option Str :=
  match pySplit ':' token with
  | [user_id, exp_s, sig] =>
    match compareDigest (expectedSig key user_id exp_s) sig with
    | none => none
    | some false => none
    | some true =>
      match pyInt exp_s with
      | none => none
      | some e => if e < (now : Int) then none else some user_id
  | _ => none

theorem ctEq_refl (a : Str) : ctEq a a = true := by
  induction a with
  | nil => rfl
  | cons x xs ih =>
    simp only [ctEq, List.length_cons, List.zip_cons_cons, List.all_cons,
      beq_self_eq_true, Bool.true_and] at ih ⊢
    exact ih

theorem ctEq_eq : ∀ {a b : Str}, ctEq a b = true → a = b := by
  intro a
  induction a with
  | nil =>
    intro b h
    cases b with
    | nil => rfl
    | cons y ys => simp [ctEq] at h
  | cons x xs ih =>
    intro b h
    cases b with
    | nil => simp [ctEq] at h
    | cons y ys =>
      simp only [ctEq, List.length_cons, List.zip_cons_cons, List.all_cons,
        Bool.and_eq_true, beq_iff_eq] at h
      obtain ⟨hl, hx, hall⟩ := h
      have hxs : ctEq xs ys = true := by
        simp only [ctEq, Bool.and_eq_true, beq_iff_eq]
        exact ⟨by omega, hall⟩
      rw [hx, ih hxs]

theorem hexdigest_ascii {bs : Bytes} (h : ∀ b ∈ bs, b < 256) :
    isAsciiStr (hexdigest bs) = true := by
  simp only [isAsciiStr, List.all_eq_true, decide_eq_true_eq]
  intro c hc
  exact lowerHex_ascii (hexdigest_lowerHex h c hc)

theorem expectedSig_ascii (key a b : Str) : isAsciiStr (expectedSig key a b) = true :=
  hexdigest_ascii (sha256_lt _)

theorem expectedSig_no_colon (key a b : Str) : ':' ∉ expectedSig key a b :=
  hexdigest_no_colon (sha256_lt _)

theorem expectedSig_length (key a b : Str) : (expectedSig key a b).length = 64 := by
  unfold expectedSig hmacSha256
  rw [hexdigest_length, sha256_length]

/-- Shared round-trip core: a freshly issued token verifies to its subject
at any time up to and including its expiry. -/
theorem verify_create_le (key u : Str) (tokenExpMin now vnow : Nat)
    (hu : ':' ∉ u) (hv : vnow ≤ now + 60 * tokenExpMin) :
    verify_token key (create_token key tokenExpMin u now) vnow = some u := by
  have hshape : create_token key tokenExpMin u now
      = u ++ ':' :: (printNat (now + 60 * tokenExpMin) ++ ':' ::
          expectedSig key u (printNat (now + 60 * tokenExpMin))) := by
    unfold create_token expectedSig
    rw [List.append_assoc]
    rfl
  rw [hshape]
  unfold verify_token
  rw [pySplit_append hu, pySplit_append (printNat_no_colon _),
    pySplit_sepFree (expectedSig_no_colon key u _)]
  simp only []
  rw [show compareDigest (expectedSig key u (printNat (now + 60 * tokenExpMin)))
        (expectedSig key u (printNat (now + 60 * tokenExpMin))) = some true by
      unfold compareDigest
      rw [expectedSig_ascii, ctEq_refl]
      rfl]
  rw [pyInt_printNat]
  simp only []
  rw [if_neg (by exact_mod_cast Nat.not_lt.2 hv)]

/-- Any split shape other than exactly three fields makes `verify_token`
return `None` (the `ValueError` from tuple unpacking, caught). -/
theorem verify_badShape (key t : Str) (now : Nat)
    (hlen : (pySplit ':' t).length ≠ 3) : verify_token key t now = none := by
  unfold verify_token
  cases hs : pySplit ':' t with
  | nil => rfl
  | cons a as =>
    cases as with
    | nil => rfl
    | cons b bs =>
      cases bs with
      | nil => rfl
      | cons c cs =>
        cases cs with
        | nil => exact absurd (by rw [hs]; rfl : (pySplit ':' t).length = 3) hlen
        | cons d ds => rfl

/-- A supplied signature different from the recomputed MAC makes
`verify_token` return `None`. -/
theorem verify_badSig (key t : Str) (now : Nat) (a b c : Str)
    (hs : pySplit ':' t = [a, b, c]) (hc : c ≠ expectedSig key a b) :
    verify_token key t now = none := by
  unfold verify_token
  rw [hs]
  show (match compareDigest (expectedSig key a b) c with
      | none => none
      | some false => none
      | some true =>
        match pyInt b with
        | none => none
        | some e => if e < (now : Int) then none else some a) = none
  cases hcd : compareDigest (expectedSig key a b) c with
  | none => rfl
  | some bb =>
    cases bb with
    | false => rfl
    | true =>
      exfalso
      unfold compareDigest at hcd
      by_cases hascii : (isAsciiStr (expectedSig key a b) && isAsciiStr c) = true
      · rw [if_pos hascii] at hcd
        injection hcd with hcd
        exact hc (ctEq_eq hcd).symm
      · rw [if_neg hascii] at hcd
        exact Option.noConfusion hcd

/-- An unparseable expiry field makes `verify_token` return `None`
(the `ValueError` from `int(exp_s)`, caught). -/
theorem verify_badExp (key t : Str) (now : Nat) (a b c : Str)
    (hs : pySplit ':' t = [a, b, c]) (hp : pyInt b = none) :
    verify_token key t now = none := by
  unfold verify_token
  rw [hs]
  show (match compareDigest (expectedSig key a b) c with
      | none => none
      | some false => none
      | some true =>
        match pyInt b with
        | none => none
        | some e => if e < (now : Int) then none else some a) = none
  cases compareDigest (expectedSig key a b) c with
  | none => rfl
  | some bb =>
    cases bb with
    | false => rfl
    | true =>
      show (match pyInt b with
          | none => none
          | some e => if e < (now : Int) then none else some a) = none
      rw [hp]

/-- A strictly passed expiry makes `verify_token` return `None`. -/
theorem verify_expired (key t : Str) (now : Nat) (a b c : Str) (e : Int)
    (hs : pySplit ':' t = [a, b, c]) (hp : pyInt b = some e) (he : e < (now : Int)) :
    verify_token key t now = none := by
  unfold verify_token
  rw [hs]
  show (match compareDigest (expectedSig key a b) c with
      | none => none
      | some false => none
      | some true =>
        match pyInt b with
        | none => none
        | some x => if x < (now : Int) then none else some a) = none
  cases compareDigest (expectedSig key a b) c with
  | none => rfl
  | some bb =>
    cases bb with
    | false => rfl
    | true =>
      show (match pyInt b with
          | none => none
          | some x => if x < (now : Int) then none else some a) = none
      rw [hp]
      show (if e < (now : Int) then none else some a) = none
      rw [if_pos he]

/-- C1: Round-trip — for every delimiter-free identity `u` and positive
configured lifetime, verifying the token produced by `create_token` at the
moment of issuance (same time, same secret key) yields `u`. -/
theorem verify_issue_roundtrip (key u : Str) (tokenExpMin now : Nat)
    (hu : ':' ∉ u) (ht : 0 < tokenExpMin) :
    verify_token key (create_token key tokenExpMin u now) now = some u :=
  verify_create_le key u tokenExpMin now now hu (by omega)

theorem verify_issue_roundtrip_witness :
    (':' ∉ ['a', 'b']) ∧ 0 < 1 ∧
      verify_token ['k'] (create_token ['k'] 1 ['a', 'b'] 5) 5 = some ['a', 'b'] :=
  ⟨by decide, by decide,
    verify_issue_roundtrip ['k'] ['a', 'b'] 1 5 (by decide) (by decide)⟩

/-- C2 counterexample: a token whose `expiresAt` equals the current time is
not strictly in the future, yet `verify_token` accepts it — the code rejects
only `exp < now` (src/main.py line 49).  The token issued with a zero
lifetime at time 1000 carries the expiry field `1000`; verifying at time
1000 returns the subject, not Invalid. -/
theorem expiry_not_strict_counterexample :
    create_token ['k'] 0 ['u'] 1000
        = ['u'] ++ ':' :: printNat 1000 ++ ':' :: expectedSig ['k'] ['u'] (printNat 1000)
    ∧ verify_token ['k'] (create_token ['k'] 0 ['u'] 1000) 1000 = some ['u'] := by
  constructor
  · show (['u'] ++ ':' :: printNat (1000 + 60 * 0)) ++ ':' ::
        hexdigest (hmacSha256 (utf8 ['k']) (utf8 (['u'] ++ ':' :: printNat (1000 + 60 * 0)))) = _
    norm_num
    rfl
  · exact verify_create_le ['k'] ['u'] 0 1000 1000 (by decide) (by omega)

/-- C2 amended: a well-formed token is Invalid when its `expiresAt` is
strictly less than the current time (`exp < now`); a token whose expiry
equals the current time is still accepted. -/
theorem verify_expiry_strict_past (key t : Str) (now : Nat) (a b c : Str) (e : Int)
    (hs : pySplit ':' t = [a, b, c]) (hp : pyInt b = some e) (he : e < (now : Int)) :
    verify_token key t now = none :=
  verify_expired key t now a b c e hs hp he

theorem verify_expiry_strict_past_witness :
    pySplit ':' ['u', ':', '5', ':', 'x'] = [['u'], ['5'], ['x']]
    ∧ pyInt ['5'] = some 5
    ∧ (5 : Int) < (10 : Nat)
    ∧ verify_token ['k'] ['u', ':', '5', ':', 'x'] 10 = none :=
  ⟨by decide, by decide, by decide,
    verify_expiry_strict_past ['k'] ['u', ':', '5', ':', 'x'] 10 ['u'] ['5'] ['x'] 5
      (by decide) (by decide) (by decide)⟩

/-- C4: totality of `verify_token` with one collapsed failure — on every
input string and time the result is an identity or `None` (never an
unhandled fault, by the broad `except`), and a wrong field count, an
unparseable expiry, a wrong signature, and a passed expiry all yield the
same `None` outcome. -/
theorem verify_total_collapsed (key t : Str) (now : Nat) :
    (verify_token key t now = none ∨ ∃ u, verify_token key t now = some u)
    ∧ ((pySplit ':' t).length ≠ 3 → verify_token key t now = none)
    ∧ (∀ a b c, pySplit ':' t = [a, b, c] → pyInt b = none →
        verify_token key t now = none)
    ∧ (∀ a b c, pySplit ':' t = [a, b, c] → c ≠ expectedSig key a b →
        verify_token key t now = none)
    ∧ (∀ a b c e, pySplit ':' t = [a, b, c] → pyInt b = some e → e < (now : Int) →
        verify_token key t now = none) := by
  refine ⟨?_, fun h => verify_badShape key t now h,
    fun a b c hs hp => verify_badExp key t now a b c hs hp,
    fun a b c hs hc => verify_badSig key t now a b c hs hc,
    fun a b c e hs hp he => verify_expired key t now a b c e hs hp he⟩
  cases h : verify_token key t now with
  | none => exact Or.inl rfl
  | some u => exact Or.inr ⟨u, rfl⟩

theorem verify_total_collapsed_witness :
    ((pySplit ':' ['x']).length ≠ 3) ∧ verify_token ['k'] ['x'] 7 = none :=
  ⟨by decide, (verify_total_collapsed ['k'] ['x'] 7).2.1 (by decide)⟩

/-- C6: wire format — for every delimiter-free subject the issued token is
exactly `subject : exp : signatureHex` where `exp = now + 60 * TOKEN_EXP_MIN`
(decimal seconds since the epoch at issuance plus the configured lifetime)
and the signature is the 64-character lowercase-hex encoding of the 32-byte
(256-bit) HMAC-SHA256 over `subject:exp`. -/
theorem token_wire_format (key u : Str) (tokenExpMin now : Nat) (hu : ':' ∉ u) :
    create_token key tokenExpMin u now
      = u ++ ':' :: printNat (now + 60 * tokenExpMin) ++ ':' ::
          expectedSig key u (printNat (now + 60 * tokenExpMin))
    ∧ (expectedSig key u (printNat (now + 60 * tokenExpMin))).length = 64
    ∧ (∀ c ∈ expectedSig key u (printNat (now + 60 * tokenExpMin)), isLowerHex c = true)
    ∧ (hmacSha256 (utf8 key) (utf8 (u ++ ':' :: printNat (now + 60 * tokenExpMin)))).length
        = 32 := by
  refine ⟨?_, expectedSig_length key u _,
    fun c hc => hexdigest_lowerHex (sha256_lt _) c hc, ?_⟩
  · unfold create_token expectedSig
    rw [List.append_assoc]
  · unfold hmacSha256
    exact sha256_length _

theorem token_wire_format_witness :
    (':' ∉ ['a', 'b', 'c']) ∧
      create_token ['k'] 1 ['a', 'b', 'c'] 1000
        = ['a', 'b', 'c'] ++ ':' :: printNat 1060 ++ ':' ::
            expectedSig ['k'] ['a', 'b', 'c'] (printNat 1060)
    ∧ (expectedSig ['k'] ['a', 'b', 'c'] (printNat 1060)).length = 64 := by
  have h := token_wire_format ['k'] ['a', 'b', 'c'] 1 1000 (by decide)
  have e60 : (1000 : Nat) + 60 * 1 = 1060 := by norm_num
  rw [e60] at h
  exact ⟨by decide, h.1, h.2.1⟩

theorem expectedSig_lowerHex (key a b : Str) :
    ∀ c ∈ expectedSig key a b, isLowerHex c = true :=
  hexdigest_lowerHex (sha256_lt _)

/-- C8: tamper detection — replacing any single character of a valid
token's signature field with a different character makes `verify_token`
return `None` (either the replacement introduces a `:` and the split gains a
field, or the signature no longer matches the recomputed MAC). -/
theorem signature_tamper_invalid (key a b sig : Str) (now : Nat) (u : Str) (i : Nat) (c : Char)
    (hv : verify_token key (a ++ ':' :: (b ++ ':' :: sig)) now = some u)
    (hi : i < sig.length) (hc : c ≠ sig.get ⟨i, hi⟩) :
    verify_token key (a ++ ':' :: (b ++ ':' :: sig.set i c)) now = none := by
  have hlen3 : (pySplit ':' (a ++ ':' :: (b ++ ':' :: sig))).length = 3 := by
    by_contra hne
    rw [verify_badShape key _ now hne] at hv
    exact Option.noConfusion hv
  have hcnt : (a ++ ':' :: (b ++ ':' :: sig)).count ':' = 2 := by
    have := pySplit_length ':' (a ++ ':' :: (b ++ ':' :: sig))
    omega
  have hcounts : a.count ':' = 0 ∧ b.count ':' = 0 ∧ sig.count ':' = 0 := by
    simp only [List.count_append, List.count_cons, beq_self_eq_true, if_true] at hcnt
    omega
  have ha : ':' ∉ a := List.count_eq_zero.1 hcounts.1
  have hb : ':' ∉ b := List.count_eq_zero.1 hcounts.2.1
  have hsg : ':' ∉ sig := List.count_eq_zero.1 hcounts.2.2
  have hsplit : pySplit ':' (a ++ ':' :: (b ++ ':' :: sig)) = [a, b, sig] := by
    rw [pySplit_append ha, pySplit_append hb, pySplit_sepFree hsg]
  have hsig_eq : sig = expectedSig key a b := by
    by_contra hne
    rw [verify_badSig key _ now a b sig hsplit hne] at hv
    exact Option.noConfusion hv
  by_cases hcol : c = ':'
  · subst hcol
    apply verify_badShape
    have hmem : ':' ∈ sig.set i ':' := List.mem_set sig i hi ':'
    have hpos : 0 < (sig.set i ':').count ':' := List.count_pos_iff.2 hmem
    rw [pySplit_length]
    simp only [List.count_append, List.count_cons, beq_self_eq_true, if_true]
    omega
  · have hfree : ':' ∉ sig.set i c := by
      intro hmem
      rcases List.mem_or_eq_of_mem_set hmem with hmem | hmem
      · exact hsg hmem
      · exact hcol hmem.symm
    have hsplit2 : pySplit ':' (a ++ ':' :: (b ++ ':' :: sig.set i c)) = [a, b, sig.set i c] := by
      rw [pySplit_append ha, pySplit_append hb, pySplit_sepFree hfree]
    apply verify_badSig key _ now a b _ hsplit2
    intro heq
    have hsame : sig.set i c = sig := by rw [heq, ← hsig_eq]
    have h1 : (sig.set i c)[i]? = some c := List.getElem?_set_self hi
    have h2 : (sig.set i c)[i]? = sig[i]? := by rw [hsame]
    have h3 : sig[i]? = some (sig.get ⟨i, hi⟩) := by
      rw [List.getElem?_eq_getElem hi]
      rfl
    rw [h2, h3] at h1
    injection h1 with h1
    exact hc h1.symm

def keyW : Str := ['k']

def subjW : Str := ['u']

def expW : Str := printNat 60

def sigW : Str := expectedSig keyW subjW expW

theorem signature_tamper_invalid_witness :
    verify_token keyW (subjW ++ ':' :: (expW ++ ':' :: sigW.set 0 ':')) 0 = none := by
  have hlen : sigW.length = 64 := expectedSig_length keyW subjW expW
  have hi : 0 < sigW.length := by omega
  have hv : verify_token keyW (subjW ++ ':' :: (expW ++ ':' :: sigW)) 0 = some subjW := by
    have h := verify_create_le keyW subjW 1 0 0 (by decide) (by omega)
    have hs : create_token keyW 1 subjW 0 = subjW ++ ':' :: (expW ++ ':' :: sigW) := by
      show (subjW ++ ':' :: printNat (0 + 60 * 1)) ++ ':' ::
          hexdigest (hmacSha256 (utf8 keyW) (utf8 (subjW ++ ':' :: printNat (0 + 60 * 1)))) = _
      norm_num
      rfl
    rw [hs] at h
    exact h
  have hne : ':' ≠ sigW.get ⟨0, hi⟩ := by
    have hmem : sigW.get ⟨0, hi⟩ ∈ sigW := List.get_mem sigW 0 hi
    exact fun heq => lowerHex_ne_colon (expectedSig_lowerHex keyW subjW expW _ hmem) heq.symm
  exact signature_tamper_invalid keyW subjW expW sigW 0 subjW 0 ':' hv hi hne

-- ---------------------------------------------------------------------------
-- The save store (src/main.py, get_saves / upsert_save) and auth dependency
-- ---------------------------------------------------------------------------

/-- A document of the `save` Mongo collection (see `Save` in
src/schemas.py plus the timestamps set by `upsert_save`).  `_id` (a Mongo
ObjectId) is modelled as a unique natural; the schema-less `data` payload is
an arbitrary type. -/
structure SaveDoc (α : Type) where
  oid : Nat
  user_id : Str
  game_slug : Str
  data : α
  created_at : Nat
  updated_at : Nat
deriving DecidableEq

/-- The `save` collection: its documents plus the next fresh `_id`. -/
structure SaveState (α : Type) where
  docs : List (SaveDoc α)
  nextId : Nat

def initState (α : Type) : SaveState α := ⟨[], 0⟩

def saveKeyMatch (u g : Str) (d : SaveDoc α) : Bool :=
  d.user_id == u && d.game_slug == g

/-- `db["save"].find_one({"user_id": u, "game_slug": g})`: first matching
document. -/
def findSave (s : SaveState α) (u g : Str) : Option (SaveDoc α) :=
  s.docs.find? (saveKeyMatch u g)

/-- `db["save"].update_one({"_id": oid}, {"$set": {"data": d,
"updated_at": now}})`: set the two fields on the first document with the
given id. -/
def updateById (l : List (SaveDoc α)) (oid : Nat) (d : α) (now : Nat) : List (SaveDoc α) :=
  match l with
  | [] => []
  | x :: xs =>
    if x.oid = oid then { x with data := d, updated_at := now } :: xs
    else x :: updateById xs oid d now

/-- Core of `upsert_save` (src/main.py lines 203-215), after
authentication: look up the record for the key; if present set `data` and
`updated_at`, else insert a fresh document with
`created_at = updated_at = now`.  Returns the new state and the document
the route returns. -/
def upsertSave (s : SaveState α) (u g : Str) (d : α) (now : Nat) :
    SaveState α × SaveDoc α :=
  match findSave s u g with
  | some ex =>
    (⟨updateById s.docs ex.oid d now, s.nextId⟩,
     { ex with data := d, updated_at := now })
  | none =>
    let doc : SaveDoc α := ⟨s.nextId, u, g, d, now, now⟩
    (⟨s.docs ++ [doc], s.nextId + 1⟩, doc)

/-- Store invariant maintained by the routes: document ids are distinct and
below the next fresh id. -/
def WF (s : SaveState α) : Prop :=
  (s.docs.map (fun d => d.oid)).Nodup
    ∧ ∀ v ∈ s.docs.map (fun d => d.oid), v < s.nextId

instance (s : SaveState α) : Decidable (WF s) := by
  unfold WF
  exact inferInstance

theorem upsertSave_eq_found {s : SaveState α} {u g : Str} {ex : SaveDoc α} {d : α}
    {now : Nat} (h : findSave s u g = some ex) :
    upsertSave s u g d now
      = (⟨updateById s.docs ex.oid d now, s.nextId⟩,
         { ex with data := d, updated_at := now }) := by
  unfold upsertSave
  rw [h]

theorem upsertSave_eq_none {s : SaveState α} {u g : Str} {d : α} {now : Nat}
    (h : findSave s u g = none) :
    upsertSave s u g d now
      = (⟨s.docs ++ [⟨s.nextId, u, g, d, now, now⟩], s.nextId + 1⟩,
         (⟨s.nextId, u, g, d, now, now⟩ : SaveDoc α)) := by
  unfold upsertSave
  rw [h]

theorem updateById_oids (l : List (SaveDoc α)) (oid : Nat) (d : α) (now : Nat) :
    (updateById l oid d now).map (fun x => x.oid) = l.map (fun x => x.oid) := by
  induction l with
  | nil => rfl
  | cons x xs ih =>
    unfold updateById
    by_cases h : x.oid = oid
    · simp [h]
    · simp [h, ih]

theorem WF_upsert {s : SaveState α} {u g : Str} {d : α} {now : Nat} (h : WF s) :
    WF (upsertSave s u g d now).1 := by
  obtain ⟨hnd, hlt⟩ := h
  unfold upsertSave
  cases hf : findSave s u g with
  | some ex =>
    show WF ⟨updateById s.docs ex.oid d now, s.nextId⟩
    refine ⟨?_, ?_⟩
    · rw [updateById_oids]
      exact hnd
    · rw [updateById_oids]
      exact hlt
  | none =>
    show WF ⟨s.docs ++ [⟨s.nextId, u, g, d, now, now⟩], s.nextId + 1⟩
    refine ⟨?_, ?_⟩
    · rw [List.map_append]
      rw [List.nodup_append]
      refine ⟨hnd, by simp, ?_⟩
      intro v hv
      simp only [List.map_cons, List.map_nil, List.mem_cons, List.not_mem_nil, or_false]
      intro hvEq
      subst hvEq
      exact absurd (hlt _ hv) (by omega)
    · intro v hv
      rw [List.map_append] at hv
      rcases List.mem_append.1 hv with hv | hv
      · exact Nat.lt_succ_of_lt (hlt _ hv)
      · simp only [List.map_cons, List.map_nil, List.mem_cons, List.not_mem_nil,
          or_false] at hv
        show v < s.nextId + 1
        omega

/-- A key-match is unaffected by updating `data` and `updated_at`. -/
theorem saveKeyMatch_update (u g : Str) (x : SaveDoc α) (d : α) (now : Nat) :
    saveKeyMatch u g { x with data := d, updated_at := now } = saveKeyMatch u g x := rfl

theorem findSave_updateById_none {l : List (SaveDoc α)} {u g : Str} {oid : Nat}
    {d : α} {now : Nat} (h : l.find? (saveKeyMatch u g) = none) :
    (updateById l oid d now).find? (saveKeyMatch u g) = none := by
  induction l with
  | nil => rfl
  | cons x xs ih =>
    rw [List.find?_cons] at h
    split at h
    · exact Option.noConfusion h
    next hx =>
      unfold updateById
      by_cases hoid : x.oid = oid
      · rw [if_pos hoid, List.find?_cons, saveKeyMatch_update]
        split
        next hx2 => exact absurd hx2 (by simp_all)
        next => exact h
      · rw [if_neg hoid, List.find?_cons]
        split
        next hx2 => exact absurd hx2 (by simp_all)
        next => exact ih h

theorem findSave_updateById_found {l : List (SaveDoc α)} {u g : Str} {ex : SaveDoc α}
    {d : α} {now : Nat} (hnd : (l.map (fun x => x.oid)).Nodup)
    (hfind : l.find? (saveKeyMatch u g) = some ex) :
    (updateById l ex.oid d now).find? (saveKeyMatch u g)
      = some { ex with data := d, updated_at := now } := by
  induction l with
  | nil => exact Option.noConfusion hfind
  | cons x xs ih =>
    rw [List.find?_cons] at hfind
    split at hfind
    next hx =>
      injection hfind with hfind
      subst hfind
      unfold updateById
      rw [if_pos rfl, List.find?_cons, saveKeyMatch_update, hx]
    next hx =>
      have hexmem : ex ∈ xs := List.mem_of_find?_eq_some hfind
      have hxoid : x.oid ≠ ex.oid := by
        have hmemoid : ex.oid ∈ xs.map (fun y => y.oid) :=
          List.mem_map_of_mem _ hexmem
        simp only [List.map_cons, List.nodup_cons] at hnd
        intro heq
        exact hnd.1 (heq ▸ hmemoid)
      unfold updateById
      rw [if_neg hxoid, List.find?_cons, hx]
      refine ih ?_ hfind
      simp only [List.map_cons, List.nodup_cons] at hnd
      exact hnd.2

theorem findSave_updateById_ne {l : List (SaveDoc α)} {u g : Str} {oid : Nat}
    {d : α} {now : Nat}
    (h : ∀ x ∈ l, x.oid = oid → saveKeyMatch u g x = false) :
    (updateById l oid d now).find? (saveKeyMatch u g) = l.find? (saveKeyMatch u g) := by
  induction l with
  | nil => rfl
  | cons x xs ih =>
    unfold updateById
    by_cases hoid : x.oid = oid
    · rw [if_pos hoid, List.find?_cons, List.find?_cons, saveKeyMatch_update,
        h x (by simp) hoid]
    · rw [if_neg hoid, List.find?_cons, List.find?_cons]
      cases hm : saveKeyMatch u g x with
      | true => rfl
      | false => exact ih (fun y hy hoidy => h y (by simp [hy]) hoidy)

/-- An upsert for a different key creates no visibility for `(u, g)`. -/
theorem findSave_upsert_other {s : SaveState α} {u g u2 g2 : Str} {d : α} {now : Nat}
    (hnone : findSave s u g = none) (hne : ¬ (u2 = u ∧ g2 = g)) :
    findSave (upsertSave s u2 g2 d now).1 u g = none := by
  unfold upsertSave
  cases hf : findSave s u2 g2 with
  | some ex =>
    show findSave ⟨updateById s.docs ex.oid d now, s.nextId⟩ u g = none
    exact findSave_updateById_none hnone
  | none =>
    show findSave ⟨s.docs ++ [⟨s.nextId, u2, g2, d, now, now⟩], s.nextId + 1⟩ u g = none
    unfold findSave at hnone ⊢
    rw [List.find?_append, hnone]
    have hd : saveKeyMatch u g (⟨s.nextId, u2, g2, d, now, now⟩ : SaveDoc α) = false := by
      by_cases h1 : u2 = u
      · by_cases h2 : g2 = g
        · exact absurd ⟨h1, h2⟩ hne
        · simp [saveKeyMatch, h2]
      · simp [saveKeyMatch, h1]
    rw [List.find?_cons, hd]
    rfl

/-- An upsert by one user never changes what any other user's lookups see. -/
theorem findSave_upsert_other_user {s : SaveState α} {u1 u2 g1 g2 : Str} {d : α}
    {now : Nat} (hWF : WF s) (hne : u2 ≠ u1) :
    findSave (upsertSave s u2 g2 d now).1 u1 g1 = findSave s u1 g1 := by
  unfold upsertSave
  cases hf : findSave s u2 g2 with
  | none =>
    show findSave ⟨s.docs ++ [⟨s.nextId, u2, g2, d, now, now⟩], s.nextId + 1⟩ u1 g1 = _
    unfold findSave
    rw [List.find?_append]
    have hd : saveKeyMatch u1 g1 (⟨s.nextId, u2, g2, d, now, now⟩ : SaveDoc α) = false := by
      simp [saveKeyMatch, hne]
    have hone : ([(⟨s.nextId, u2, g2, d, now, now⟩ : SaveDoc α)]).find? (saveKeyMatch u1 g1)
        = none := by
      rw [List.find?_cons, hd]
      rfl
    rw [hone, Option.or_none]
  | some ex =>
    show findSave ⟨updateById s.docs ex.oid d now, s.nextId⟩ u1 g1 = _
    unfold findSave
    apply findSave_updateById_ne
    intro x hx hxoid
    have hexmem : ex ∈ s.docs := List.mem_of_find?_eq_some hf
    have hxeq : x = ex := List.inj_on_of_nodup_map hWF.1 hx hexmem hxoid
    subst hxeq
    have hkey : saveKeyMatch u2 g2 x = true := List.find?_some hf
    have hux : x.user_id = u2 := by
      simp only [saveKeyMatch, Bool.and_eq_true, beq_iff_eq] at hkey
      exact hkey.1
    simp [saveKeyMatch, hux, hne]

/-- One recorded write: `upsert_save` called by `user` for game `slug`. -/
structure SaveOp (α : Type) where
  user : Str
  slug : Str
  payload : α
  time : Nat

/-- Replay a sequence of upserts against a store state. -/
def execOps (s : SaveState α) : List (SaveOp α) → SaveState α
  | [] => s
  | o :: rest => execOps (upsertSave s o.user o.slug o.payload o.time).1 rest

theorem WF_init (α : Type) : WF (initState α) :=
  ⟨List.nodup_nil, by intro v hv; simp [initState] at hv⟩

theorem WF_exec (ops : List (SaveOp α)) :
    ∀ s : SaveState α, WF s → WF (execOps s ops) := by
  induction ops with
  | nil => intro s h; exact h
  | cons o rest ih =>
    intro s h
    exact ih _ (WF_upsert h)

theorem findSave_exec_no_write (ops : List (SaveOp α)) (u g : Str) :
    ∀ s : SaveState α, findSave s u g = none →
      (∀ o ∈ ops, ¬ (o.user = u ∧ o.slug = g)) →
      findSave (execOps s ops) u g = none := by
  induction ops with
  | nil => intro s h _; exact h
  | cons o rest ih =>
    intro s h hno
    exact ih _ (findSave_upsert_other h (hno o (by simp)))
      (fun o2 h2 => hno o2 (by simp [h2]))

/-- C3: last-write-wins upsert — starting from any well-formed state with no
record for the key `(u, g)`, two successive upserts leave exactly one
record for the key: its `data` is the second payload, its `created_at` is
the time of the first call and its `updated_at` the time of the second. -/
theorem upsert_last_write_wins {α : Type} (s : SaveState α) (u g : Str) (d1 d2 : α)
    (t1 t2 : Nat) (hWF : WF s) (hnone : findSave s u g = none) :
    findSave ((upsertSave (upsertSave s u g d1 t1).1 u g d2 t2).1) u g
      = some ⟨s.nextId, u, g, d2, t1, t2⟩ := by
  have hkey0 : saveKeyMatch u g (⟨s.nextId, u, g, d1, t1, t1⟩ : SaveDoc α) = true := by
    simp [saveKeyMatch]
  have hfind1 : findSave (upsertSave s u g d1 t1).1 u g
      = some ⟨s.nextId, u, g, d1, t1, t1⟩ := by
    rw [upsertSave_eq_none hnone]
    show (s.docs ++ [(⟨s.nextId, u, g, d1, t1, t1⟩ : SaveDoc α)]).find? (saveKeyMatch u g)
        = some ⟨s.nextId, u, g, d1, t1, t1⟩
    unfold findSave at hnone
    rw [List.find?_append, hnone, List.find?_cons, hkey0]
    rfl
  have hnd1 : ((upsertSave s u g d1 t1).1.docs.map (fun x => x.oid)).Nodup :=
    (WF_upsert hWF).1
  rw [upsertSave_eq_found hfind1]
  show (updateById (upsertSave s u g d1 t1).1.docs
      (⟨s.nextId, u, g, d1, t1, t1⟩ : SaveDoc α).oid d2 t2).find? (saveKeyMatch u g)
      = some ⟨s.nextId, u, g, d2, t1, t2⟩
  have hfind2 : (upsertSave s u g d1 t1).1.docs.find? (saveKeyMatch u g)
      = some ⟨s.nextId, u, g, d1, t1, t1⟩ := hfind1
  rw [findSave_updateById_found hnd1 hfind2]

theorem upsert_last_write_wins_witness :
    WF (initState Nat)
    ∧ findSave (initState Nat) ['u'] ['g'] = none
    ∧ findSave ((upsertSave (upsertSave (initState Nat) ['u'] ['g'] 3 10).1
          ['u'] ['g'] 5 20).1) ['u'] ['g']
        = some ⟨0, ['u'], ['g'], 5, 10, 20⟩ :=
  ⟨WF_init Nat, rfl,
    upsert_last_write_wins (initState Nat) ['u'] ['g'] 3 5 10 20 (WF_init Nat) rfl⟩

/-- C7: frame on update — when `upsert_save` finds an existing record for
the key, the stored and returned record keeps its `_id`, `user_id`,
`game_slug` and `created_at`, and only `data` and `updated_at` change;
the collection's next id is unchanged. -/
theorem upsert_update_frame {α : Type} (s : SaveState α) (u g : Str) (ex : SaveDoc α)
    (d : α) (now : Nat) (hWF : WF s) (hfound : findSave s u g = some ex) :
    ∃ r : SaveDoc α,
      (upsertSave s u g d now).2 = r
      ∧ findSave (upsertSave s u g d now).1 u g = some r
      ∧ (upsertSave s u g d now).1.nextId = s.nextId
      ∧ r.data = d ∧ r.updated_at = now
      ∧ r.created_at = ex.created_at ∧ r.user_id = ex.user_id
      ∧ r.game_slug = ex.game_slug ∧ r.oid = ex.oid := by
  refine ⟨{ ex with data := d, updated_at := now }, ?_, ?_, ?_, rfl, rfl, rfl, rfl, rfl, rfl⟩
  · unfold upsertSave
    rw [hfound]
  · have h2 : (upsertSave s u g d now).1 = ⟨updateById s.docs ex.oid d now, s.nextId⟩ := by
      unfold upsertSave
      rw [hfound]
    rw [h2]
    unfold findSave at hfound ⊢
    exact findSave_updateById_found hWF.1 hfound
  · unfold upsertSave
    rw [hfound]

theorem upsert_update_frame_witness :
    WF (⟨[⟨0, ['u'], ['g'], 3, 10, 10⟩], 1⟩ : SaveState Nat)
    ∧ findSave (⟨[⟨0, ['u'], ['g'], 3, 10, 10⟩], 1⟩ : SaveState Nat) ['u'] ['g']
        = some ⟨0, ['u'], ['g'], 3, 10, 10⟩
    ∧ ∃ r : SaveDoc Nat,
        (upsertSave (⟨[⟨0, ['u'], ['g'], 3, 10, 10⟩], 1⟩ : SaveState Nat)
            ['u'] ['g'] 7 20).2 = r
        ∧ findSave (upsertSave (⟨[⟨0, ['u'], ['g'], 3, 10, 10⟩], 1⟩ : SaveState Nat)
            ['u'] ['g'] 7 20).1 ['u'] ['g'] = some r
        ∧ (upsertSave (⟨[⟨0, ['u'], ['g'], 3, 10, 10⟩], 1⟩ : SaveState Nat)
            ['u'] ['g'] 7 20).1.nextId = 1
        ∧ r.data = 7 ∧ r.updated_at = 20
        ∧ r.created_at = 10 ∧ r.user_id = ['u']
        ∧ r.game_slug = ['g'] ∧ r.oid = 0 :=
  ⟨by decide, by decide,
    upsert_update_frame _ ['u'] ['g'] ⟨0, ['u'], ['g'], 3, 10, 10⟩ 7 20
      (by decide) (by decide)⟩

/-- C5: ownership isolation — along any history of upserts none of which is
by user `u2` for game `g`, a lookup by `u2` finds nothing; it still finds
nothing after `u1`'s upsert for `g` (`u1 ≠ u2`); and a subsequent upsert by
`u2` leaves `u1`'s record exactly as it was. -/
theorem save_ownership_isolation {α : Type} (ops : List (SaveOp α)) (u1 u2 g : Str)
    (d d2 : α) (t t2 : Nat) (hne : u1 ≠ u2)
    (hno : ∀ o ∈ ops, ¬ (o.user = u2 ∧ o.slug = g)) :
    findSave (execOps (initState α) ops) u2 g = none
    ∧ findSave (upsertSave (execOps (initState α) ops) u1 g d t).1 u2 g = none
    ∧ findSave (upsertSave (upsertSave (execOps (initState α) ops) u1 g d t).1
          u2 g d2 t2).1 u1 g
        = findSave (upsertSave (execOps (initState α) ops) u1 g d t).1 u1 g := by
  have h1 : findSave (execOps (initState α) ops) u2 g = none :=
    findSave_exec_no_write ops u2 g (initState α) rfl hno
  refine ⟨h1, ?_, ?_⟩
  · exact findSave_upsert_other h1 (fun hcontra => hne hcontra.1)
  · exact findSave_upsert_other_user
      (WF_upsert (WF_exec ops (initState α) (WF_init α))) (fun h => hne h.symm)

theorem save_ownership_isolation_witness :
    (['a'] : Str) ≠ ['b']
    ∧ findSave (execOps (initState Nat) []) ['b'] ['g'] = none
    ∧ findSave (upsertSave (execOps (initState Nat) []) ['a'] ['g'] 1 0).1 ['b'] ['g'] = none
    ∧ findSave (upsertSave (upsertSave (execOps (initState Nat) []) ['a'] ['g'] 1 0).1
          ['b'] ['g'] 2 1).1 ['a'] ['g']
        = findSave (upsertSave (execOps (initState Nat) []) ['a'] ['g'] 1 0).1 ['a'] ['g'] := by
  have h := save_ownership_isolation ([] : List (SaveOp Nat)) ['a'] ['b'] ['g'] 1 2 0 1
    (by decide) (by simp)
  exact ⟨by decide, h.1, h.2.1, h.2.2⟩

structure HttpError where
  status : Nat
  detail : String
deriving DecidableEq

structure SavePayload (α : Type) where
  game_slug : Str
  data : α

def lowerStr (s : Str) : Str := s.map Char.toLower

/-- The character sequence of the literal `"bearer "`. -/
def bearerLower : Str := ['b', 'e', 'a', 'r', 'e', 'r', ' ']

/-- `authorization.split(" ", 1)[1]`: everything after the first space.
The callers reach this only after the `startswith("bearer ")` check, so a
space is present. -/
def afterFirstSpace : Str → Str
  | [] => []
  | c :: cs => if c = ' ' then cs else afterFirstSpace cs

/-- `get_current_user_id` (src/main.py lines 154-161): 401 when no
authorization value is presented, when it is empty or does not start with
`"bearer "` case-insensitively, when the token fails `verify_token`, and
when the verified subject is falsy (empty). -/
def get_current_user_id (key : Str) (authorization : Option Str) (now : Nat) :
    Except HttpError Str :=
  match authorization with
  | none => .error ⟨401, "Missing bearer token"⟩
  | some a =>
    if a = [] ∨ ¬ (bearerLower.isPrefixOf (lowerStr a)) then
      .error ⟨401, "Missing bearer token"⟩
    else
      match verify_token key (afterFirstSpace a) now with
      | none => .error ⟨401, "Invalid or expired token"⟩
      | some uid =>
        if uid = [] then .error ⟨401, "Invalid or expired token"⟩ else .ok uid

inductive GetSavesResult (α : Type) where
  | found : SaveDoc α → GetSavesResult α
  | emptyDefault : Str → GetSavesResult α

/-- `get_saves` route (src/main.py lines 185-195), database configured: a
truthy (present, non-empty) authorization header is authenticated and the
user's record returned when one exists; otherwise — in particular when no
header is presented — the empty default `{"game_slug": g, "data": {}}` is
returned. -/
def get_saves (key : Str) (s : SaveState α) (game_slug : Str)
    (authorization : Option Str) (now : Nat) : Except HttpError (GetSavesResult α) :=
  match authorization with
  | none => .ok (.emptyDefault game_slug)
  | some a =>
    if a = [] then .ok (.emptyDefault game_slug)
    else
      match get_current_user_id key (some a) now with
      | .error e => .error e
      | .ok uid =>
        match findSave s uid game_slug with
        | some save => .ok (.found save)
        | none => .ok (.emptyDefault game_slug)

/-- `upsert_save` route (src/main.py lines 198-215), database configured:
authentication is unconditional, then the upsert core runs as the
authenticated user. -/
def upsert_save (key : Str) (s : SaveState α) (p : SavePayload α)
    (authorization : Option Str) (now : Nat) :
    Except HttpError (SaveState α × SaveDoc α) :=
  match get_current_user_id key authorization now with
  | .error e => .error e
  | .ok uid => .ok (upsertSave s uid p.game_slug p.data now)

/-- C10: the save read route requires no token — with no authorization
value the read performs no token verification (the result is the empty
default `{game_slug, data: {}}` for every state, key and time), while the
save write route with no authorization value fails with 401 Unauthorized. -/
theorem reads_need_no_token {α : Type} (key : Str) (s : SaveState α) (g : Str)
    (p : SavePayload α) (now : Nat) :
    get_saves key s g none now = .ok (.emptyDefault g)
    ∧ upsert_save key s p none now = .error ⟨401, "Missing bearer token"⟩ :=
  ⟨rfl, rfl⟩
